import Mathlib

/-!
Shallow embedding of `storage::segment_offset_index`
(src/v/storage/segment_offset_index.cc): a sparse offset index mapping
sampled logical record offsets of a log segment to byte positions.

Modelling conventions:
* `model::offset` is a signed 64-bit integer wrapper; we model it as `Int`.
* `size_t` values are modelled as `Nat`.
* The C++ casts `static_cast<uint32_t>(...)` are modelled as reduction
  modulo `2 ^ 32` (`u32`, `relOff`).
* The `vassert` precondition checks are modelled by returning `Option`:
  `none` means the assertion fired (the process aborts before any state
  change), `some` carries the resulting state / answer.
* File I/O (`flush`, `materialize_index`, `truncate`'s internal flush) is
  modelled by explicit state passing of the backing file's byte content
  (`List Nat`), together with a failure-injection flag: when the flag is
  set the write fails and the file content is left as it was.  Partial
  writes are a corruption scenario handled outside this component and are
  not modelled.
-/

/-- In-memory state of `storage::segment_offset_index` (fields `_base`,
`_step`, `_positions`, `_acc`, `_last_seen_offset`, `_needs_persistence`;
the file handle and name are modelled separately / dropped). -/
structure segment_offset_index where
  base : Int
  step : Nat
  positions : List (Nat × Nat)
  acc : Nat
  last_seen_offset : Int
  needs_persistence : Bool
  deriving DecidableEq, Repr

/-- `static_cast<uint32_t>` of a non-negative quantity. -/
def u32 (n : Nat) : Nat := n % 2 ^ 32

/-- The relative offset `o() - _base()` as computed by the code: 64-bit
signed subtraction then a cast to `uint32_t` (reduction mod `2 ^ 32`). -/
def relOff (o base : Int) : Nat := ((o - base) % (2 ^ 32 : Int)).toNat

/-- The body of `maybe_track` past the assert and the out-of-order guard
(lines 38-47): update `_last_seen_offset`, add to `_acc`, and append a new
entry when the accumulator reaches `_step`. -/
def track_step (s : segment_offset_index) (o : Int) (pos data_size i : Nat) :
    segment_offset_index :=
  let acc1 := s.acc + data_size
  if s.step ≤ acc1 then
    { s with last_seen_offset := o
             acc := 0
             positions := s.positions ++ [(i, u32 pos)]
             needs_persistence := true }
  else
    { s with last_seen_offset := o, acc := acc1 }

/-- `segment_offset_index::maybe_track` (lines 24-48).  `none` models the
`vassert(o >= _base)` firing.  When `_positions` is non-empty and the
candidate relative offset is strictly below the last stored one, the call
is dropped (lines 31-37). -/
def maybe_track (s : segment_offset_index) (o : Int) (pos data_size : Nat) :
    Option segment_offset_index :=
  if o < s.base then none
  else
    let i := relOff o s.base
    match s.positions.getLast? with
    | some lp => if i < lp.1 then some s else some (track_step s o pos data_size i)
    | none => some (track_step s o pos data_size i)

/-- Result index of `std::lower_bound(begin, end, i, base_comparator{})`
over `_positions`: the index of the first entry whose `first` component is
not less than the needle.  (`std::lower_bound` requires the range to be
partitioned with respect to `p.first < i`, which the sortedness invariant
guarantees; on such a range the binary search returns exactly this
partition point.) -/
def lowerBoundIdx (ps : List (Nat × Nat)) (i : Nat) : Nat :=
  match ps with
  | [] => 0
  | p :: rest => if p.1 < i then lowerBoundIdx rest i + 1 else 0

/-- `segment_offset_index::lower_bound_pair` past the assert
(lines 68-86): empty check, lower-bound search, then the two-step
back-off.  The `getD` index is always in range (the list is non-empty and
the index is clamped), so the default is never used. -/
def lower_bound_pair_core (s : segment_offset_index) (o : Int) :
    Option (Int × Nat) :=
  if s.positions = [] then none
  else
    let i := relOff o s.base
    let k0 := lowerBoundIdx s.positions i
    let k1 := if k0 = s.positions.length then k0 - 1 else k0
    let p := s.positions.getD k1 (0, 0)
    if p.1 ≤ i then some (s.base + (p.1 : Int), p.2)
    else
      let k2 := if 0 < k1 then k1 - 1 else k1
      let q := s.positions.getD k2 (0, 0)
      if q.1 ≤ i then some (s.base + (q.1 : Int), q.2)
      else none

/-- `segment_offset_index::lower_bound_pair` (lines 61-87).  Outer `none`
models the `vassert(o >= _base)` firing; `some none` is a normal
"not found". -/
def lower_bound_pair (s : segment_offset_index) (o : Int) :
    Option (Option (Int × Nat)) :=
  if o < s.base then none else some (lower_bound_pair_core s o)

/-- `segment_offset_index::lower_bound` (lines 89-95). -/
def lower_bound (s : segment_offset_index) (o : Int) : Option (Option Nat) :=
  (lower_bound_pair s o).map (fun r => r.map Prod.snd)

/-- The in-memory part of `segment_offset_index::truncate`
(lines 97-110), before the internal `flush`: assert, set
`_last_seen_offset`, and erase every entry from the lower-bound iterator
to the end (marking `_needs_persistence` when the erased range is
non-empty). -/
def truncate_mem (s : segment_offset_index) (o : Int) :
    Option segment_offset_index :=
  if o < s.base then none
  else
    let i := relOff o s.base
    let k := lowerBoundIdx s.positions i
    let s1 := { s with last_seen_offset := o }
    if k < s1.positions.length then
      some { s1 with needs_persistence := true, positions := s1.positions.take k }
    else
      some s1

/-- Modelled from the spec: `offset_index_to_buf` lives in
`storage/segment_offset_index_utils.h`, which is not among the sources.
Per the spec's binary-format section, each entry is 8 bytes: a 4-byte
little-endian unsigned integer holding the relative offset followed by a
4-byte unsigned integer holding the byte position; total length is
`8 * entry_count` with no header. `encode_u32` is the 4-byte
little-endian encoding of one 32-bit value. -/
def encode_u32 (n : Nat) : List Nat :=
  [n % 256, n / 256 % 256, n / 256 ^ 2 % 256, n / 256 ^ 3 % 256]

/-- Modelled from the spec: the flat, headerless concatenation of 8-byte
entry records, in list order. -/
def offset_index_to_buf : List (Nat × Nat) → List Nat
  | [] => []
  | p :: rest => encode_u32 p.1 ++ encode_u32 p.2 ++ offset_index_to_buf rest

/-- Little-endian recombination of four bytes into one 32-bit value. -/
def decode_u32 (b0 b1 b2 b3 : Nat) : Nat :=
  b0 + 256 * b1 + 256 ^ 2 * b2 + 256 ^ 3 * b3

/-- Modelled from the spec: `offset_index_from_buf` (also from
`storage/segment_offset_index_utils.h`): decode consecutive 8-byte
records; the byte length alone determines the entry count. -/
def offset_index_from_buf : List Nat → List (Nat × Nat)
  | b0 :: b1 :: b2 :: b3 :: c0 :: c1 :: c2 :: c3 :: rest =>
      (decode_u32 b0 b1 b2 b3, decode_u32 c0 c1 c2 c3)
        :: offset_index_from_buf rest
  | _ => []

/-- `segment_offset_index::materialize_index` (lines 114-126): read the
whole backing file; an empty buffer returns `false` and leaves the state
untouched, otherwise `_positions` is replaced by the decoded entries and
`true` is returned.  `_needs_persistence` is never touched. -/
def materialize_index (s : segment_offset_index) (file : List Nat) :
    segment_offset_index × Bool :=
  if file.isEmpty then (s, false)
  else ({ s with positions := offset_index_from_buf file }, true)

/-- One step of `flush` as observed through the backing file: the result
state, the resulting file content, whether any file operation was
performed, and whether the returned future failed. -/
structure flush_outcome where
  idx : segment_offset_index
  file : List Nat
  io_performed : Bool
  failed : Bool
  deriving DecidableEq, Repr

/-- `segment_offset_index::flush` (lines 128-142): a no-op when
`_needs_persistence` is unset; otherwise the flag is cleared first, and
only then the file is truncated, the entries encoded and written, and the
stream flushed.  A failure of that I/O chain (injected through
`io_fails`) propagates through the returned future; the in-memory state
keeps the already-cleared flag and the file content is modelled as left
unchanged. -/
def flush (s : segment_offset_index) (file : List Nat) (io_fails : Bool) :
    flush_outcome :=
  if s.needs_persistence then
    let s1 := { s with needs_persistence := false }
    if io_fails then
      { idx := s1, file := file, io_performed := true, failed := true }
    else
      { idx := s1, file := offset_index_to_buf s1.positions
        io_performed := true, failed := false }
  else
    { idx := s, file := file, io_performed := false, failed := false }

/-- Events of the `flush` body in program order, used to state that the
dirty flag is cleared strictly before any file operation. -/
inductive flush_event where
  | clear_dirty
  | file_truncate
  | file_write
  | file_flush
  | file_close
  deriving DecidableEq, Repr

/-- Which events touch the backing file. -/
def flush_event.is_file_op : flush_event → Bool
  | .clear_dirty => false
  | _ => true

/-- The sequence of events `flush` performs, in program order
(lines 129-141): nothing when not dirty; otherwise the
`_needs_persistence = false` assignment (line 132) strictly precedes
`_out.truncate(0)`, the buffer write, the stream flush and the close. -/
def flush_trace (s : segment_offset_index) : List flush_event :=
  if s.needs_persistence then
    [.clear_dirty, .file_truncate, .file_write, .file_flush, .file_close]
  else []

/-- `segment_offset_index::truncate` (lines 97-112): the in-memory
surgery followed by the internal `flush`. -/
def truncate (s : segment_offset_index) (file : List Nat) (o : Int)
    (io_fails : Bool) : Option flush_outcome :=
  (truncate_mem s o).map (fun s1 => flush s1 file io_fails)

/-- Combined state of the index and its backing file, for reasoning about
operation sequences. -/
structure sys_state where
  idx : segment_offset_index
  file : List Nat
  deriving DecidableEq, Repr

/-- The operations a caller can drive the index with (the file handle is
part of `sys_state`; the failure-injection flags pick the outcome of each
asynchronous operation). -/
inductive op where
  | track (o : Int) (pos data_size : Nat)
  | lookup (o : Int)
  | trunc (o : Int) (io_fails : Bool)
  | load
  | flush_op (io_fails : Bool)
  deriving DecidableEq, Repr

/-- Apply one operation; `none` models a fired assertion. -/
def apply_op : op → sys_state → Option sys_state
  | .track o pos ds, st =>
      (maybe_track st.idx o pos ds).map (fun s => { st with idx := s })
  | .lookup o, st => (lower_bound_pair st.idx o).map (fun _ => st)
  | .trunc o f, st =>
      (truncate st.idx st.file o f).map (fun r => ⟨r.idx, r.file⟩)
  | .load, st => some ⟨(materialize_index st.idx st.file).1, st.file⟩
  | .flush_op f, st =>
      let r := flush st.idx st.file f
      some ⟨r.idx, r.file⟩

/-- Run a sequence of operations from a starting state. -/
def run_ops : List op → sys_state → Option sys_state
  | [], st => some st
  | a :: rest, st => (apply_op a st).bind (run_ops rest)

/-- A freshly constructed index (lines 17-22) over an empty backing file:
empty entry list, zero accumulator, clean.  The initial value of
`_last_seen_offset` comes from the header (not among the sources) and is
immaterial to every claim; it is modelled as the base offset. -/
def fresh (base : Int) (step : Nat) : sys_state :=
  ⟨⟨base, step, [], 0, base, false⟩, []⟩

/-! ### Helper lemmas: the lower-bound search on sorted entry lists -/

theorem lowerBoundIdx_le_length (ps : List (Nat × Nat)) (i : Nat) :
    lowerBoundIdx ps i ≤ ps.length := by
  induction ps with
  | nil => simp [lowerBoundIdx]
  | cons p rest ih =>
    simp only [lowerBoundIdx, List.length_cons]
    split <;> omega

theorem lowerBoundIdx_lt (ps : List (Nat × Nat)) (i : Nat) :
    ∀ (j : Nat) (h : j < ps.length), j < lowerBoundIdx ps i →
      (ps.get ⟨j, h⟩).1 < i := by
  induction ps with
  | nil => intro j h hj; simp at h
  | cons p rest ih =>
    intro j h hj
    simp only [lowerBoundIdx] at hj
    split at hj
    · cases j with
      | zero => assumption
      | succ j1 => exact ih j1 (by simpa using h) (by omega)
    · omega

theorem lowerBoundIdx_ge (ps : List (Nat × Nat)) (i : Nat)
    (hs : ps.Pairwise (fun a b => a.1 ≤ b.1)) :
    ∀ (j : Nat) (h : j < ps.length), lowerBoundIdx ps i ≤ j →
      i ≤ (ps.get ⟨j, h⟩).1 := by
  induction ps with
  | nil => intro j h hj; simp at h
  | cons p rest ih =>
    intro j h hj
    rw [List.pairwise_cons] at hs
    simp only [lowerBoundIdx] at hj
    split at hj
    · cases j with
      | zero => omega
      | succ j1 => exact ih hs.2 j1 (by simpa using h) (by omega)
    · rename_i hp
      cases j with
      | zero => show i ≤ p.1; omega
      | succ j1 =>
        have hmem : rest.get ⟨j1, by simpa using h⟩ ∈ rest := List.get_mem ..
        have := hs.1 _ hmem
        show i ≤ (rest.get ⟨j1, by simpa using h⟩).1
        omega

theorem entries_get_mono (ps : List (Nat × Nat))
    (hs : ps.Pairwise (fun a b => a.1 ≤ b.1)) (j k : Nat) (hjk : j ≤ k)
    (hk : k < ps.length) :
    (ps.get ⟨j, by omega⟩).1 ≤ (ps.get ⟨k, hk⟩).1 := by
  rcases Nat.eq_or_lt_of_le hjk with rfl | hlt
  · exact Nat.le_refl _
  · exact List.pairwise_iff_get.mp hs ⟨j, by omega⟩ ⟨k, hk⟩ hlt

theorem entries_getD_eq_get (ps : List (Nat × Nat)) (k : Nat)
    (h : k < ps.length) (d : Nat × Nat) :
    ps.getD k d = ps.get ⟨k, h⟩ := by
  simp [List.getD_eq_getElem?_getD, List.getElem?_eq_getElem h,
    List.get_eq_getElem]

theorem entries_le_getLast (ps : List (Nat × Nat))
    (hs : ps.Pairwise (fun a b => a.1 ≤ b.1)) (lp : Nat × Nat)
    (hl : ps.getLast? = some lp) : ∀ q ∈ ps, q.1 ≤ lp.1 := by
  induction ps with
  | nil => simp at hl
  | cons p rest ih =>
    rw [List.pairwise_cons] at hs
    intro q hq
    cases rest with
    | nil =>
      simp at hl hq
      subst hl
      subst hq
      exact Nat.le_refl _
    | cons r rs =>
      rw [List.getLast?_cons_cons] at hl
      rcases List.mem_cons.mp hq with rfl | hq2
      · obtain ⟨hne, heq⟩ :=
          List.mem_getLast?_eq_getLast (Option.mem_def.mpr hl)
        have hlpmem : lp ∈ r :: rs := by rw [heq]; exact List.getLast_mem hne
        exact hs.1 lp hlpmem
      · exact ih hs.2 hl q hq2

theorem relOff_eq (o base : Int) (h1 : base ≤ o) (h2 : o - base < 2 ^ 32) :
    (relOff o base : Int) = o - base := by
  unfold relOff
  have h3 : (0 : Int) ≤ o - base := by omega
  rw [Int.emod_eq_of_lt h3 (by exact_mod_cast h2)]
  omega

/-! ### The Locator (claim C1) -/

/-- C1: for every target logical offset `T ≥ base_offset` (within the
spec's hard 4 GiB segment-size precondition, so that the relative offset
fits in 32 bits) and a sorted entry list, `lower_bound_pair` returns the
stored entry with the greatest offset at most `T`, translated back to a
logical offset, if any stored entry lies at or below `T`; otherwise it
returns nothing — in particular whenever the list is empty or `T` is
below the first stored entry. -/
theorem lower_bound_pair_correct (s : segment_offset_index) (T : Int)
    (hT : s.base ≤ T) (hseg : T - s.base < 2 ^ 32)
    (hs : s.positions.Pairwise (fun a b => a.1 ≤ b.1)) :
    (∃ p, p ∈ s.positions ∧ (p.1 : Int) ≤ T - s.base ∧
        lower_bound_pair s T = some (some (s.base + (p.1 : Int), p.2)) ∧
        ∀ q ∈ s.positions, (q.1 : Int) ≤ T - s.base → q.1 ≤ p.1) ∨
    ((∀ q ∈ s.positions, T - s.base < (q.1 : Int)) ∧
        lower_bound_pair s T = some none) := by
  have hrel : (relOff T s.base : Int) = T - s.base := relOff_eq _ _ hT hseg
  have hfull : lower_bound_pair s T = some (lower_bound_pair_core s T) := by
    unfold lower_bound_pair
    rw [if_neg (by omega)]
  by_cases hne : s.positions = []
  · right
    constructor
    · intro q hq; rw [hne] at hq; simp at hq
    · rw [hfull]
      unfold lower_bound_pair_core
      rw [if_pos hne]
  · have hlen : 0 < s.positions.length := List.length_pos.mpr hne
    have hk0n : lowerBoundIdx s.positions (relOff T s.base) ≤
        s.positions.length := lowerBoundIdx_le_length _ _
    by_cases hend :
        lowerBoundIdx s.positions (relOff T s.base) = s.positions.length
    · -- search landed past the end: step back to the last entry
      have hn1 : s.positions.length - 1 < s.positions.length := by omega
      have hplt : (s.positions.get ⟨s.positions.length - 1, hn1⟩).1 <
          relOff T s.base := lowerBoundIdx_lt _ _ _ _ (by omega)
      have hval : lower_bound_pair_core s T =
          some (s.base +
              ((s.positions.get ⟨s.positions.length - 1, hn1⟩).1 : Int),
            (s.positions.get ⟨s.positions.length - 1, hn1⟩).2) := by
        simp only [lower_bound_pair_core]
        rw [if_neg hne, if_pos hend, hend,
          entries_getD_eq_get s.positions (s.positions.length - 1) hn1 (0, 0),
          if_pos (Nat.le_of_lt hplt)]
      left
      refine ⟨s.positions.get ⟨s.positions.length - 1, hn1⟩,
        List.get_mem _ _ _, by omega, by rw [hfull, hval], ?_⟩
      intro q hq _
      obtain ⟨⟨jq, hjq⟩, hqget⟩ := List.mem_iff_get.mp hq
      rw [← hqget]
      exact entries_get_mono _ hs jq (s.positions.length - 1) (by omega) hn1
    · -- the landed entry is the first one at or above the target
      have hk0lt : lowerBoundIdx s.positions (relOff T s.base) <
          s.positions.length := by omega
      have hpge : relOff T s.base ≤
          (s.positions.get
            ⟨lowerBoundIdx s.positions (relOff T s.base), hk0lt⟩).1 :=
        lowerBoundIdx_ge _ _ hs _ _ (Nat.le_refl _)
      by_cases hple : (s.positions.get
          ⟨lowerBoundIdx s.positions (relOff T s.base), hk0lt⟩).1 ≤
          relOff T s.base
      · -- exact hit
        have hval : lower_bound_pair_core s T =
            some (s.base +
                ((s.positions.get
                  ⟨lowerBoundIdx s.positions (relOff T s.base), hk0lt⟩).1 :
                  Int),
              (s.positions.get
                ⟨lowerBoundIdx s.positions (relOff T s.base), hk0lt⟩).2) := by
          simp only [lower_bound_pair_core]
          rw [if_neg hne, if_neg hend,
            entries_getD_eq_get s.positions
              (lowerBoundIdx s.positions (relOff T s.base)) hk0lt (0, 0),
            if_pos hple]
        left
        refine ⟨s.positions.get
            ⟨lowerBoundIdx s.positions (relOff T s.base), hk0lt⟩,
          List.get_mem _ _ _, by omega, by rw [hfull, hval], ?_⟩
        intro q hq hqle
        omega
      · -- landed strictly above the target: back off one step
        by_cases hk0z : 0 < lowerBoundIdx s.positions (relOff T s.base)
        · have hbk : lowerBoundIdx s.positions (relOff T s.base) - 1 <
              s.positions.length := by omega
          have hqlt : (s.positions.get
              ⟨lowerBoundIdx s.positions (relOff T s.base) - 1, hbk⟩).1 <
              relOff T s.base := lowerBoundIdx_lt _ _ _ _ (by omega)
          have hval : lower_bound_pair_core s T =
              some (s.base +
                  ((s.positions.get
                    ⟨lowerBoundIdx s.positions (relOff T s.base) - 1,
                      hbk⟩).1 : Int),
                (s.positions.get
                  ⟨lowerBoundIdx s.positions (relOff T s.base) - 1,
                    hbk⟩).2) := by
            simp only [lower_bound_pair_core]
            rw [if_neg hne, if_neg hend,
              entries_getD_eq_get s.positions
                (lowerBoundIdx s.positions (relOff T s.base)) hk0lt (0, 0),
              if_neg hple, if_pos hk0z,
              entries_getD_eq_get s.positions
                (lowerBoundIdx s.positions (relOff T s.base) - 1) hbk (0, 0),
              if_pos (Nat.le_of_lt hqlt)]
          left
          refine ⟨s.positions.get
              ⟨lowerBoundIdx s.positions (relOff T s.base) - 1, hbk⟩,
            List.get_mem _ _ _, by omega, by rw [hfull, hval], ?_⟩
          intro r hr hrle
          obtain ⟨⟨jr, hjr⟩, hrget⟩ := List.mem_iff_get.mp hr
          by_cases hjlt : jr < lowerBoundIdx s.positions (relOff T s.base)
          · rw [← hrget]
            exact entries_get_mono _ hs jr
              (lowerBoundIdx s.positions (relOff T s.base) - 1)
              (by omega) hbk
          · exfalso
            have h1 : relOff T s.base ≤ (s.positions.get ⟨jr, hjr⟩).1 :=
              lowerBoundIdx_ge _ _ hs _ _ (by omega)
            have h2 : (s.positions.get
                ⟨lowerBoundIdx s.positions (relOff T s.base), hk0lt⟩).1 ≤
                (s.positions.get ⟨jr, hjr⟩).1 :=
              entries_get_mono _ hs _ jr (by omega) hjr
            rw [hrget] at h1 h2
            omega
        · -- cannot back off: every entry is above the target
          have hval : lower_bound_pair_core s T = none := by
            simp only [lower_bound_pair_core]
            rw [if_neg hne, if_neg hend,
              entries_getD_eq_get s.positions
                (lowerBoundIdx s.positions (relOff T s.base)) hk0lt (0, 0),
              if_neg hple, if_neg hk0z,
              entries_getD_eq_get s.positions
                (lowerBoundIdx s.positions (relOff T s.base)) hk0lt (0, 0),
              if_neg hple]
          right
          constructor
          · intro r hr
            obtain ⟨⟨jr, hjr⟩, hrget⟩ := List.mem_iff_get.mp hr
            have h1 : relOff T s.base ≤ (s.positions.get ⟨jr, hjr⟩).1 :=
              lowerBoundIdx_ge _ _ hs _ _ (by omega)
            have h2 : (s.positions.get
                ⟨lowerBoundIdx s.positions (relOff T s.base), hk0lt⟩).1 ≤
                (s.positions.get ⟨jr, hjr⟩).1 :=
              entries_get_mono _ hs _ jr (by omega) hjr
            rw [hrget] at h1 h2
            omega
          · rw [hfull, hval]


def c1_example : segment_offset_index :=
  ⟨100, 4096, [(0, 0), (1000, 512), (2500, 1300)], 0, 100, false⟩

/-- C1 witness: the spec's worked example — entries
`[(0,0),(1000,512),(2500,1300)]` with base offset 100, looked up at
target 1600. -/
theorem lower_bound_pair_correct_witness :
    (∃ p, p ∈ c1_example.positions ∧ (p.1 : Int) ≤ 1600 - c1_example.base ∧
        lower_bound_pair c1_example 1600 =
          some (some (c1_example.base + (p.1 : Int), p.2)) ∧
        ∀ q ∈ c1_example.positions, (q.1 : Int) ≤ 1600 - c1_example.base →
          q.1 ≤ p.1) ∨
    ((∀ q ∈ c1_example.positions, 1600 - c1_example.base < (q.1 : Int)) ∧
        lower_bound_pair c1_example 1600 = some none) :=
  lower_bound_pair_correct c1_example 1600 (by decide) (by decide) (by decide)

/-! ### The binary format (claim C8) and entry-list well-formedness -/

theorem decode_encode_u32 (n : Nat) (h : n < 2 ^ 32) :
    decode_u32 (n % 256) (n / 256 % 256) (n / 256 ^ 2 % 256)
      (n / 256 ^ 3 % 256) = n := by
  unfold decode_u32
  have e2 : (256 : Nat) ^ 2 = 65536 := by norm_num
  have e3 : (256 : Nat) ^ 3 = 16777216 := by norm_num
  have e4 : (2 : Nat) ^ 32 = 4294967296 := by norm_num
  rw [e2, e3] at *
  rw [e4] at h
  omega

theorem from_buf_to_buf (ps : List (Nat × Nat))
    (h : ∀ p ∈ ps, p.1 < 2 ^ 32 ∧ p.2 < 2 ^ 32) :
    offset_index_from_buf (offset_index_to_buf ps) = ps := by
  induction ps with
  | nil => rfl
  | cons p rest ih =>
    have hp := h p (List.mem_cons_self _ _)
    have hrest := fun q hq => h q (List.mem_cons_of_mem _ hq)
    simp only [offset_index_to_buf, encode_u32, List.cons_append,
      List.nil_append, List.append_eq, offset_index_from_buf]
    rw [ih hrest, decode_encode_u32 p.1 hp.1, decode_encode_u32 p.2 hp.2]

/-- The well-formedness of the entry list: sorted non-decreasing by
relative offset, with both components of every entry fitting in 32 bits
(they are produced by `uint32_t` casts or decoded from 4-byte fields). -/
def entries_ok (ps : List (Nat × Nat)) : Prop :=
  ps.Pairwise (fun a b => a.1 ≤ b.1) ∧ ∀ p ∈ ps, p.1 < 2 ^ 32 ∧ p.2 < 2 ^ 32

/-- The invariant tying the in-memory entries and the backing file. -/
def sys_inv (st : sys_state) : Prop :=
  entries_ok st.idx.positions ∧ entries_ok (offset_index_from_buf st.file)

theorem relOff_lt (o base : Int) : relOff o base < 2 ^ 32 := by
  unfold relOff
  have h1 : (0 : Int) ≤ (o - base) % (2 ^ 32 : Int) :=
    Int.emod_nonneg _ (by norm_num)
  have h2 : (o - base) % (2 ^ 32 : Int) < 2 ^ 32 :=
    Int.emod_lt_of_pos _ (by norm_num)
  omega

theorem u32_lt (n : Nat) : u32 n < 2 ^ 32 :=
  Nat.mod_lt _ (by norm_num)

theorem entries_ok_append (ps : List (Nat × Nat)) (e : Nat × Nat)
    (hok : entries_ok ps) (he1 : e.1 < 2 ^ 32) (he2 : e.2 < 2 ^ 32)
    (hge : ∀ q ∈ ps, q.1 ≤ e.1) : entries_ok (ps ++ [e]) := by
  constructor
  · rw [List.pairwise_append]
    refine ⟨hok.1, List.pairwise_singleton _ _, ?_⟩
    intro a ha b hb
    simp at hb
    subst hb
    exact hge a ha
  · intro p hp
    rcases List.mem_append.mp hp with hmem | hmem
    · exact hok.2 p hmem
    · simp at hmem
      subst hmem
      exact ⟨he1, he2⟩

theorem entries_ok_take (ps : List (Nat × Nat)) (k : Nat)
    (hok : entries_ok ps) : entries_ok (ps.take k) :=
  ⟨hok.1.sublist (List.take_sublist _ _),
    fun p hp => hok.2 p (List.mem_of_mem_take hp)⟩

/-! ### Invariant preservation (claim C2) -/

theorem entries_ok_track_step (s : segment_offset_index) (o : Int)
    (pos ds i : Nat) (hok : entries_ok s.positions) (hi : i < 2 ^ 32)
    (hge : ∀ q ∈ s.positions, q.1 ≤ i) :
    entries_ok (track_step s o pos ds i).positions := by
  simp only [track_step]
  split
  · exact entries_ok_append _ _ hok hi (u32_lt _) hge
  · exact hok

theorem entries_ok_maybe_track (s s1 : segment_offset_index) (o : Int)
    (pos ds : Nat) (h : maybe_track s o pos ds = some s1)
    (hok : entries_ok s.positions) : entries_ok s1.positions := by
  simp only [maybe_track] at h
  split at h
  · simp at h
  · split at h
    · rename_i lp heq
      split at h
      · injection h with h
        subst h
        exact hok
      · rename_i hnlt
        injection h with h
        subst h
        refine entries_ok_track_step _ _ _ _ _ hok (relOff_lt _ _) ?_
        intro q hq
        have := entries_le_getLast _ hok.1 lp heq q hq
        omega
    · rename_i heq
      injection h with h
      subst h
      refine entries_ok_track_step _ _ _ _ _ hok (relOff_lt _ _) ?_
      intro q hq
      rw [List.getLast?_eq_none_iff.mp heq] at hq
      simp at hq

theorem entries_ok_truncate_mem (s s1 : segment_offset_index) (o : Int)
    (h : truncate_mem s o = some s1) (hok : entries_ok s.positions) :
    entries_ok s1.positions := by
  simp only [truncate_mem] at h
  split at h
  · simp at h
  · split at h
    · injection h with h
      subst h
      exact entries_ok_take _ _ hok
    · injection h with h
      subst h
      exact hok

theorem sys_inv_flush (s : segment_offset_index) (file : List Nat)
    (f : Bool) (h1 : entries_ok s.positions)
    (h2 : entries_ok (offset_index_from_buf file)) :
    entries_ok (flush s file f).idx.positions ∧
      entries_ok (offset_index_from_buf (flush s file f).file) := by
  unfold flush
  split
  · split
    · exact ⟨h1, h2⟩
    · refine ⟨h1, ?_⟩
      simp only
      rw [from_buf_to_buf _ h1.2]
      exact h1
  · exact ⟨h1, h2⟩

theorem sys_inv_apply_op (a : op) (st st1 : sys_state)
    (h : apply_op a st = some st1) (hinv : sys_inv st) : sys_inv st1 := by
  obtain ⟨hidx, hfile⟩ := hinv
  cases a with
  | track o pos ds =>
    simp only [apply_op, Option.map_eq_some'] at h
    obtain ⟨s1, hs1, hst1⟩ := h
    subst hst1
    exact ⟨entries_ok_maybe_track _ _ _ _ _ hs1 hidx, hfile⟩
  | lookup o =>
    simp only [apply_op, Option.map_eq_some'] at h
    obtain ⟨r, _, hst1⟩ := h
    subst hst1
    exact ⟨hidx, hfile⟩
  | trunc o f =>
    simp only [apply_op, truncate, Option.map_eq_some'] at h
    obtain ⟨r, hr, hst1⟩ := h
    subst hst1
    obtain ⟨s1, hs1, hrs⟩ := hr
    subst hrs
    have hok1 := entries_ok_truncate_mem _ _ _ hs1 hidx
    exact ⟨(sys_inv_flush s1 st.file f hok1 hfile).1,
      (sys_inv_flush s1 st.file f hok1 hfile).2⟩
  | load =>
    simp only [apply_op, Option.some.injEq] at h
    subst h
    unfold sys_inv
    unfold materialize_index
    split
    · exact ⟨hidx, hfile⟩
    · exact ⟨hfile, hfile⟩
  | flush_op f =>
    simp only [apply_op, Option.some.injEq] at h
    subst h
    exact ⟨(sys_inv_flush st.idx st.file f hidx hfile).1,
      (sys_inv_flush st.idx st.file f hidx hfile).2⟩

theorem sys_inv_run_ops (ops : List op) (st st1 : sys_state)
    (h : run_ops ops st = some st1) (hinv : sys_inv st) : sys_inv st1 := by
  induction ops generalizing st with
  | nil =>
    simp only [run_ops, Option.some.injEq] at h
    subst h
    exact hinv
  | cons a rest ih =>
    simp only [run_ops, Option.bind_eq_some] at h
    obtain ⟨st2, hst2, hrest⟩ := h
    exact ih st2 hrest (sys_inv_apply_op a st st2 hst2 hinv)

/-- C2 (amended): for every sequence of operations (track, lookup,
truncate, load, flush) from a fresh index, the entry list is always
sorted non-decreasing by relative offset.  The list need not be
duplicate-free: tracking an offset equal to the last stored entry is not
dropped (only strictly smaller ones are) and can append a second entry
with the same relative offset. -/
theorem run_ops_sorted (b : Int) (st : Nat) (ops : List op) (r : sys_state)
    (h : run_ops ops (fresh b st) = some r) :
    r.idx.positions.Pairwise (fun a b => a.1 ≤ b.1) := by
  have hinv0 : sys_inv (fresh b st) :=
    ⟨⟨List.Pairwise.nil, by intro p hp; simp [fresh] at hp⟩,
      ⟨List.Pairwise.nil, by intro p hp; simp [fresh, offset_index_from_buf] at hp⟩⟩
  exact (sys_inv_run_ops ops _ r h hinv0).1.1

/-- C2 witness: two `track` calls from a fresh index; the reached entry
list is sorted non-decreasing. -/
theorem run_ops_sorted_witness :
    (⟨⟨0, 1, [(0, 0), (0, 1)], 0, 0, true⟩, []⟩ :
        sys_state).idx.positions.Pairwise (fun a b => a.1 ≤ b.1) :=
  run_ops_sorted 0 1 [op.track 0 0 1, op.track 0 1 1]
    ⟨⟨0, 1, [(0, 0), (0, 1)], 0, 0, true⟩, []⟩ (by decide)

/-- C2 counterexample: from a fresh index with step 1, tracking offset 0
twice appends two entries with the same relative offset 0 — the entry
list is reachable yet not duplicate-free by relative offset, refuting the
claim as stated. -/
theorem run_ops_duplicate_cex :
    run_ops [op.track 0 0 1, op.track 0 1 1] (fresh 0 1) =
      some ⟨⟨0, 1, [(0, 0), (0, 1)], 0, 0, true⟩, []⟩ ∧
    ¬(([(0, 0), (0, 1)] : List (Nat × Nat)).map Prod.fst).Nodup := by
  exact ⟨by decide, by decide⟩

/-! ### The Sampler (claims C3, C4) -/

/-- C3: a `track` call that passes the precondition (the assert does not
fire, so a state is returned) and is not dropped as out-of-order (the
entry list is empty or its last relative offset is at most the candidate)
sets `last_seen_offset` to the tracked offset and adds the payload size to
the accumulator; exactly when the accumulated bytes reach or exceed
`step`, the entry `(relative_offset, byte_position)` is appended with the
accumulator reset to 0 and the dirty flag set; when they stay below
`step`, no entry is appended and the dirty flag is not touched. -/
theorem maybe_track_effects (s s1 : segment_offset_index) (o : Int)
    (pos ds : Nat) (h : maybe_track s o pos ds = some s1)
    (hnd : s.positions.getLast?.all
      (fun lp => decide (lp.1 ≤ relOff o s.base)) = true) :
    s1.last_seen_offset = o ∧ s1.base = s.base ∧ s1.step = s.step ∧
    (s.step ≤ s.acc + ds →
      s1.positions = s.positions ++ [(relOff o s.base, u32 pos)] ∧
      s1.acc = 0 ∧ s1.needs_persistence = true) ∧
    (s.acc + ds < s.step →
      s1.positions = s.positions ∧ s1.acc = s.acc + ds ∧
      s1.needs_persistence = s.needs_persistence) := by
  simp only [maybe_track] at h
  split at h
  · simp at h
  · split at h
    · rename_i lp heq
      rw [heq] at hnd
      simp only [Option.all_some, decide_eq_true_eq] at hnd
      split at h
      · omega
      · injection h with h
        subst h
        simp only [track_step]
        split
        · rename_i hth
          refine ⟨rfl, rfl, rfl, fun _ => ⟨rfl, rfl, rfl⟩, fun hlt => ?_⟩
          omega
        · rename_i hth
          refine ⟨rfl, rfl, rfl, fun hge => ?_, fun _ => ⟨rfl, rfl, rfl⟩⟩
          omega
    · rename_i heq
      injection h with h
      subst h
      simp only [track_step]
      split
      · rename_i hth
        refine ⟨rfl, rfl, rfl, fun _ => ⟨rfl, rfl, rfl⟩, fun hlt => ?_⟩
        omega
      · rename_i hth
        refine ⟨rfl, rfl, rfl, fun hge => ?_, fun _ => ⟨rfl, rfl, rfl⟩⟩
        omega

/-- C3 witness: a fresh-like index with step 2 tracks offset 1 at byte
position 7 with payload 5; the threshold is reached, so the entry `(1,7)`
is appended, the accumulator resets and the dirty flag is set. -/
theorem maybe_track_effects_witness :
    (⟨0, 2, [(1, 7)], 0, 1, true⟩ : segment_offset_index).last_seen_offset =
        1 ∧
    (⟨0, 2, [(1, 7)], 0, 1, true⟩ : segment_offset_index).base =
        (⟨0, 2, [], 0, 0, false⟩ : segment_offset_index).base ∧
    (⟨0, 2, [(1, 7)], 0, 1, true⟩ : segment_offset_index).step =
        (⟨0, 2, [], 0, 0, false⟩ : segment_offset_index).step ∧
    ((⟨0, 2, [], 0, 0, false⟩ : segment_offset_index).step ≤
        (⟨0, 2, [], 0, 0, false⟩ : segment_offset_index).acc + 5 →
      (⟨0, 2, [(1, 7)], 0, 1, true⟩ : segment_offset_index).positions =
        (⟨0, 2, [], 0, 0, false⟩ : segment_offset_index).positions ++
          [(relOff 1 (⟨0, 2, [], 0, 0, false⟩ : segment_offset_index).base,
            u32 7)] ∧
      (⟨0, 2, [(1, 7)], 0, 1, true⟩ : segment_offset_index).acc = 0 ∧
      (⟨0, 2, [(1, 7)], 0, 1, true⟩ :
        segment_offset_index).needs_persistence = true) ∧
    ((⟨0, 2, [], 0, 0, false⟩ : segment_offset_index).acc + 5 <
        (⟨0, 2, [], 0, 0, false⟩ : segment_offset_index).step →
      (⟨0, 2, [(1, 7)], 0, 1, true⟩ : segment_offset_index).positions =
        (⟨0, 2, [], 0, 0, false⟩ : segment_offset_index).positions ∧
      (⟨0, 2, [(1, 7)], 0, 1, true⟩ : segment_offset_index).acc =
        (⟨0, 2, [], 0, 0, false⟩ : segment_offset_index).acc + 5 ∧
      (⟨0, 2, [(1, 7)], 0, 1, true⟩ :
          segment_offset_index).needs_persistence =
        (⟨0, 2, [], 0, 0, false⟩ :
          segment_offset_index).needs_persistence) :=
  maybe_track_effects ⟨0, 2, [], 0, 0, false⟩ ⟨0, 2, [(1, 7)], 0, 1, true⟩
    1 7 5 (by decide) (by decide)

/-- C4: when the entry list is non-empty and the candidate relative
offset is strictly below the last stored entry's relative offset, the
`track` call is a complete no-op: the returned state is the input state,
so entries, accumulator, `last_seen_offset` and the dirty flag are all
unchanged. -/
theorem maybe_track_out_of_order (s : segment_offset_index) (o : Int)
    (pos ds : Nat) (lp : Nat × Nat) (hbase : s.base ≤ o)
    (hl : s.positions.getLast? = some lp)
    (hlt : relOff o s.base < lp.1) :
    maybe_track s o pos ds = some s := by
  simp only [maybe_track, hl]
  rw [if_neg (by omega), if_pos hlt]

/-- C4 witness: tracking offset 2 against an index whose last entry has
relative offset 5 leaves the state untouched. -/
theorem maybe_track_out_of_order_witness :
    maybe_track ⟨0, 1, [(5, 0)], 0, 5, true⟩ 2 9 9 =
      some ⟨0, 1, [(5, 0)], 0, 5, true⟩ :=
  maybe_track_out_of_order ⟨0, 1, [(5, 0)], 0, 5, true⟩ 2 9 9 (5, 0)
    (by decide) (by decide) (by decide)

/-! ### The Mutator (claim C5) -/

theorem take_lowerBoundIdx_eq_filter (ps : List (Nat × Nat)) (i : Nat)
    (hs : ps.Pairwise (fun a b => a.1 ≤ b.1)) :
    ps.take (lowerBoundIdx ps i) = ps.filter (fun p => decide (p.1 < i)) := by
  induction ps with
  | nil => rfl
  | cons p rest ih =>
    rw [List.pairwise_cons] at hs
    simp only [lowerBoundIdx]
    split
    · rename_i hp
      rw [List.take_succ_cons, List.filter_cons_of_pos (by simpa using hp),
        ih hs.2]
    · rename_i hp
      rw [List.take_zero, List.filter_cons_of_neg (by simpa using hp)]
      symm
      rw [List.filter_eq_nil_iff]
      intro q hq
      have := hs.1 q hq
      simp only [decide_eq_true_eq]
      omega

theorem lowerBoundIdx_eq_length_iff (ps : List (Nat × Nat)) (i : Nat) :
    lowerBoundIdx ps i = ps.length ↔
      ps.all (fun p => decide (p.1 < i)) = true := by
  induction ps with
  | nil => simp [lowerBoundIdx]
  | cons p rest ih =>
    simp only [lowerBoundIdx, List.all_cons, List.length_cons]
    split
    · rename_i hp
      have hd : decide (p.1 < i) = true := by simpa using hp
      rw [hd, Bool.true_and, ← ih]
      omega
    · rename_i hp
      have hd : decide (p.1 < i) = false := by simpa using hp
      rw [hd, Bool.false_and]
      constructor
      · intro hc
        omega
      · intro hc
        simp at hc

/-- C5 (amended): for every `truncate(X)` with `X ≥ base_offset` and
`X - base_offset` within the spec's hard 32-bit segment bound, on a
sorted entry list, the in-memory truncation step sets `last_seen_offset`
to `X`, removes exactly the stored entries whose relative offset is
`≥ X - base_offset` (keeping the prefix strictly before the first entry
at or beyond the target), leaves `base`, `step` and the accumulator
unchanged, sets the dirty flag when at least one entry is removed and
leaves it unchanged otherwise, and afterwards no remaining entry has
relative offset `≥ X - base_offset`. -/
theorem truncate_mem_correct (s : segment_offset_index) (X : Int)
    (hX : s.base ≤ X) (hseg : X - s.base < 2 ^ 32)
    (hs : s.positions.Pairwise (fun a b => a.1 ≤ b.1)) :
    ∃ s1, truncate_mem s X = some s1 ∧
      s1.last_seen_offset = X ∧ s1.base = s.base ∧ s1.step = s.step ∧
      s1.acc = s.acc ∧
      s1.positions =
        s.positions.filter (fun p => decide ((p.1 : Int) < X - s.base)) ∧
      s1.needs_persistence =
        (s.needs_persistence ||
          !(s.positions.all (fun p => decide ((p.1 : Int) < X - s.base)))) ∧
      ∀ p ∈ s1.positions, (p.1 : Int) < X - s.base := by
  have hrel : (relOff X s.base : Int) = X - s.base := relOff_eq _ _ hX hseg
  have hpred : ∀ p ∈ s.positions,
      (decide ((p.1 : Int) < X - s.base)) =
        (decide (p.1 < relOff X s.base)) := by
    intro p _
    rw [decide_eq_decide]
    omega
  have hfilter :
      s.positions.filter (fun p => decide ((p.1 : Int) < X - s.base)) =
        s.positions.filter (fun p => decide (p.1 < relOff X s.base)) :=
    List.filter_congr hpred
  have hall :
      s.positions.all (fun p => decide ((p.1 : Int) < X - s.base)) =
        s.positions.all (fun p => decide (p.1 < relOff X s.base)) := by
    rcases hcase : s.positions.all (fun p => decide (p.1 < relOff X s.base))
    · rw [List.all_eq_false] at hcase ⊢
      obtain ⟨p, hp, hnp⟩ := hcase
      exact ⟨p, hp, by rw [hpred p hp]; exact hnp⟩
    · rw [List.all_eq_true] at hcase ⊢
      intro p hp
      rw [hpred p hp]
      exact hcase p hp
  have hk := lowerBoundIdx_le_length s.positions (relOff X s.base)
  by_cases hrem : lowerBoundIdx s.positions (relOff X s.base) <
      s.positions.length
  · -- at least one entry is removed
    have heq : truncate_mem s X =
        some ⟨s.base, s.step,
          s.positions.take (lowerBoundIdx s.positions (relOff X s.base)),
          s.acc, X, true⟩ := by
      simp only [truncate_mem]
      rw [if_neg (by omega), if_pos hrem]
    refine ⟨_, heq, rfl, rfl, rfl, rfl, ?_, ?_, ?_⟩
    · simp only
      rw [hfilter, take_lowerBoundIdx_eq_filter _ _ hs]
    · simp only
      have : ¬(s.positions.all
          (fun p => decide (p.1 < relOff X s.base)) = true) := by
        rw [← lowerBoundIdx_eq_length_iff]
        omega
      rw [hall]
      simp [Bool.eq_false_iff.mpr this]
    · simp only
      intro p hp
      rw [take_lowerBoundIdx_eq_filter _ _ hs] at hp
      have := List.of_mem_filter hp
      simp only [decide_eq_true_eq] at this
      omega
  · -- nothing to remove
    have hlen : lowerBoundIdx s.positions (relOff X s.base) =
        s.positions.length := by omega
    have hallt := (lowerBoundIdx_eq_length_iff _ _).mp hlen
    have heq : truncate_mem s X =
        some ⟨s.base, s.step, s.positions, s.acc, X,
          s.needs_persistence⟩ := by
      simp only [truncate_mem]
      rw [if_neg (by omega), if_neg (by omega)]
    refine ⟨_, heq, rfl, rfl, rfl, rfl, ?_, ?_, ?_⟩
    · simp only
      rw [hfilter]
      symm
      exact List.filter_eq_self.mpr (List.all_eq_true.mp hallt)
    · simp only
      rw [hall, hallt]
      simp
    · simp only
      intro p hp
      have := List.all_eq_true.mp hallt p hp
      simp only [decide_eq_true_eq] at this
      omega

/-- C5 witness: truncating at 1 on a clean sorted index with entries at
relative offsets 0 and 3 removes the entry `(3,9)` and sets the dirty
flag. -/
theorem truncate_mem_correct_witness :
    ∃ s1, truncate_mem ⟨0, 1, [(0, 4), (3, 9)], 0, 3, false⟩ 1 = some s1 ∧
      s1.last_seen_offset = 1 ∧
      s1.base = (⟨0, 1, [(0, 4), (3, 9)], 0, 3, false⟩ :
        segment_offset_index).base ∧
      s1.step = (⟨0, 1, [(0, 4), (3, 9)], 0, 3, false⟩ :
        segment_offset_index).step ∧
      s1.acc = (⟨0, 1, [(0, 4), (3, 9)], 0, 3, false⟩ :
        segment_offset_index).acc ∧
      s1.positions =
        (⟨0, 1, [(0, 4), (3, 9)], 0, 3, false⟩ :
            segment_offset_index).positions.filter
          (fun p => decide ((p.1 : Int) <
            1 - (⟨0, 1, [(0, 4), (3, 9)], 0, 3, false⟩ :
              segment_offset_index).base)) ∧
      s1.needs_persistence =
        ((⟨0, 1, [(0, 4), (3, 9)], 0, 3, false⟩ :
            segment_offset_index).needs_persistence ||
          !((⟨0, 1, [(0, 4), (3, 9)], 0, 3, false⟩ :
              segment_offset_index).positions.all
            (fun p => decide ((p.1 : Int) <
              1 - (⟨0, 1, [(0, 4), (3, 9)], 0, 3, false⟩ :
                segment_offset_index).base)))) ∧
      ∀ p ∈ s1.positions, (p.1 : Int) <
        1 - (⟨0, 1, [(0, 4), (3, 9)], 0, 3, false⟩ :
          segment_offset_index).base :=
  truncate_mem_correct ⟨0, 1, [(0, 4), (3, 9)], 0, 3, false⟩ 1 (by decide)
    (by decide) (by decide)

/-- C5 counterexample: on an already-dirty index (reachable by a single
entry-recording `track`), a truncate that removes nothing leaves the
dirty flag set, so "the dirty flag is set if and only if at least one
entry was removed by this call" fails as stated: the flag is set while
the entry list is unchanged. -/
theorem truncate_dirty_iff_cex :
    truncate_mem ⟨0, 1, [(0, 0)], 0, 0, true⟩ 5 =
      some ⟨0, 1, [(0, 0)], 0, 5, true⟩ ∧
    ¬(true = true ↔ ([(0, 0)] : List (Nat × Nat)) ≠ [(0, 0)]) := by
  exact ⟨by decide, by decide⟩

/-! ### The Persister (claims C6, C7, C8) -/

/-- C6: flush is idempotent with respect to I/O.  When the dirty flag is
unset, `flush` performs no file operation and changes neither the state
nor the file, whatever the injected I/O outcome; and after any `flush`
(on any index, dirty or not, failing or not), a second `flush` with no
intervening mutation performs no file operation. -/
theorem flush_idempotent (s t : segment_offset_index) (sfile tfile : List Nat)
    (f1 f2 f3 : Bool) (h : s.needs_persistence = false) :
    flush s sfile f1 = ⟨s, sfile, false, false⟩ ∧
    (flush (flush t tfile f2).idx (flush t tfile f2).file f3).io_performed =
      false := by
  constructor
  · unfold flush
    rw [if_neg (by simp [h])]
  · rcases ht : t.needs_persistence <;> rcases hf : f2 <;>
      simp [flush, ht, hf]

/-- C6 witness: a clean index flushes as a no-op, and a dirty index
flushed twice performs I/O only on the first call. -/
theorem flush_idempotent_witness :
    flush ⟨0, 1, [], 0, 0, false⟩ [] true =
      ⟨⟨0, 1, [], 0, 0, false⟩, [], false, false⟩ ∧
    (flush (flush ⟨0, 1, [(3, 4)], 2, 0, true⟩ [] false).idx
        (flush ⟨0, 1, [(3, 4)], 2, 0, true⟩ [] false).file
        false).io_performed = false :=
  flush_idempotent ⟨0, 1, [], 0, 0, false⟩ ⟨0, 1, [(3, 4)], 2, 0, true⟩
    [] [] true false false rfl

/-- C7: when `flush` runs with the dirty flag set, clearing the flag is
the first event of its trace and every later event is a file operation
(so the flag is cleared strictly before any file I/O); when the
subsequent I/O fails, the failure propagates through the returned future
while the flag stays cleared and the in-memory entry list is unchanged;
on success the flag is likewise left cleared. -/
theorem flush_clears_dirty_before_io (s : segment_offset_index)
    (file : List Nat) (h : s.needs_persistence = true) :
    (flush_trace s).head? = some flush_event.clear_dirty ∧
    flush_event.clear_dirty.is_file_op = false ∧
    (∀ e ∈ (flush_trace s).tail, e.is_file_op = true) ∧
    (flush s file true).failed = true ∧
    (flush s file true).idx.needs_persistence = false ∧
    (flush s file true).idx.positions = s.positions ∧
    (flush s file true).file = file ∧
    (flush s file false).idx.needs_persistence = false := by
  refine ⟨?_, rfl, ?_, ?_, ?_, ?_, ?_, ?_⟩ <;>
    simp [flush_trace, flush, h, flush_event.is_file_op]

/-- C7 witness: a dirty index with entries `[(3,4)]` flushed with an
injected I/O failure. -/
theorem flush_clears_dirty_before_io_witness :
    (flush_trace ⟨0, 1, [(3, 4)], 2, 0, true⟩).head? =
      some flush_event.clear_dirty ∧
    flush_event.clear_dirty.is_file_op = false ∧
    (∀ e ∈ (flush_trace ⟨0, 1, [(3, 4)], 2, 0, true⟩).tail,
      e.is_file_op = true) ∧
    (flush ⟨0, 1, [(3, 4)], 2, 0, true⟩ [9] true).failed = true ∧
    (flush ⟨0, 1, [(3, 4)], 2, 0, true⟩ [9]
      true).idx.needs_persistence = false ∧
    (flush ⟨0, 1, [(3, 4)], 2, 0, true⟩ [9] true).idx.positions =
      (⟨0, 1, [(3, 4)], 2, 0, true⟩ : segment_offset_index).positions ∧
    (flush ⟨0, 1, [(3, 4)], 2, 0, true⟩ [9] true).file = [9] ∧
    (flush ⟨0, 1, [(3, 4)], 2, 0, true⟩ [9]
      false).idx.needs_persistence = false :=
  flush_clears_dirty_before_io ⟨0, 1, [(3, 4)], 2, 0, true⟩ [9] rfl

/-- C8: the 8-bytes-per-entry binary format round-trips — decoding the
encoding of any entry list of 32-bit values reproduces the identical
ordered list; encoding the empty list yields a zero-length buffer; and an
empty buffer makes `materialize_index` return `false` leaving the whole
state (in particular an empty entry list, and the dirty flag) untouched. -/
theorem offset_index_roundtrip (ps : List (Nat × Nat))
    (h : ∀ p ∈ ps, p.1 < 2 ^ 32 ∧ p.2 < 2 ^ 32) :
    offset_index_from_buf (offset_index_to_buf ps) = ps ∧
    offset_index_to_buf [] = ([] : List Nat) ∧
    ∀ s : segment_offset_index, materialize_index s [] = (s, false) :=
  ⟨from_buf_to_buf ps h, rfl, fun _ => rfl⟩

/-- C8 witness: a two-entry list including the largest 32-bit value. -/
theorem offset_index_roundtrip_witness :
    offset_index_from_buf
        (offset_index_to_buf [(1, 2), (4294967295, 0)]) =
      [(1, 2), (4294967295, 0)] ∧
    offset_index_to_buf [] = ([] : List Nat) ∧
    ∀ s : segment_offset_index, materialize_index s [] = (s, false) :=
  offset_index_roundtrip [(1, 2), (4294967295, 0)] (by decide)

/-! ### Preconditions and frame effects (claims C9, C10) -/

/-- C9: each of track (`maybe_track`), lookup (`lower_bound_pair`) and
`truncate` hits the `vassert` — modelled as returning `none`, i.e.
aborting before producing any state or result — exactly when the logical
offset is strictly below `base_offset`; for offsets at or above base the
assertion branch is unreachable and a result is produced. -/
theorem assert_below_base (s : segment_offset_index) (file : List Nat)
    (o : Int) (pos ds : Nat) (f : Bool) :
    (maybe_track s o pos ds = none ↔ o < s.base) ∧
    (lower_bound_pair s o = none ↔ o < s.base) ∧
    (truncate s file o f = none ↔ o < s.base) := by
  by_cases h : o < s.base
  · refine ⟨?_, ?_, ?_⟩ <;> simp [maybe_track, lower_bound_pair, truncate,
      truncate_mem, h]
  · refine ⟨?_, ?_, ?_⟩
    · simp only [maybe_track, if_neg h]
      split
      · split
        · simpa using h
        · simpa using h
      · simpa using h
    · simp [lower_bound_pair, h]
    · simp only [truncate, truncate_mem, if_neg h]
      split
      · simpa using h
      · simpa using h

/-- C10: truncating at a target whose relative offset (within the 32-bit
segment bound) lies strictly above every stored entry leaves the entry
list, the dirty flag and the accumulator unchanged — only
`last_seen_offset` is updated — and when the index was not already dirty
the internally triggered flush performs no file operation and leaves the
file untouched. -/
theorem truncate_beyond_all (s : segment_offset_index) (file : List Nat)
    (X : Int) (f : Bool) (hX : s.base ≤ X) (hseg : X - s.base < 2 ^ 32)
    (hall : ∀ p ∈ s.positions, (p.1 : Int) < X - s.base) :
    truncate_mem s X =
      some ⟨s.base, s.step, s.positions, s.acc, X,
        s.needs_persistence⟩ ∧
    (s.needs_persistence = false →
      truncate s file X f =
        some ⟨⟨s.base, s.step, s.positions, s.acc, X, false⟩, file,
          false, false⟩) := by
  have hrel : (relOff X s.base : Int) = X - s.base := relOff_eq _ _ hX hseg
  have hallb : s.positions.all (fun p => decide (p.1 < relOff X s.base)) =
      true := by
    rw [List.all_eq_true]
    intro p hp
    have := hall p hp
    simp only [decide_eq_true_eq]
    omega
  have hlen : lowerBoundIdx s.positions (relOff X s.base) =
      s.positions.length := (lowerBoundIdx_eq_length_iff _ _).mpr hallb
  have hmem : truncate_mem s X =
      some ⟨s.base, s.step, s.positions, s.acc, X,
        s.needs_persistence⟩ := by
    simp only [truncate_mem]
    rw [if_neg (by omega), if_neg (by omega)]
  refine ⟨hmem, fun hclean => ?_⟩
  unfold truncate
  rw [hmem]
  simp only [Option.map_some']
  unfold flush
  rw [if_neg (by simp [hclean])]
  rw [hclean]

/-- C10 witness: truncating at 10 over a single clean entry at relative
offset 3 leaves everything but `last_seen_offset` unchanged and performs
no I/O. -/
theorem truncate_beyond_all_witness :
    truncate_mem ⟨0, 1, [(3, 4)], 0, 0, false⟩ 10 =
      some ⟨0, 1, [(3, 4)], 0, 10, false⟩ ∧
    ((⟨0, 1, [(3, 4)], 0, 0, false⟩ :
        segment_offset_index).needs_persistence = false →
      truncate ⟨0, 1, [(3, 4)], 0, 0, false⟩ [9, 9] 10 false =
        some ⟨⟨0, 1, [(3, 4)], 0, 10, false⟩, [9, 9], false, false⟩) :=
  truncate_beyond_all ⟨0, 1, [(3, 4)], 0, 0, false⟩ [9, 9] 10 false
    (by decide) (by decide) (by decide)
